import Mathlib

/-!
Verification of the pi-rewind-hook prompt-to-code attribution core.

The definitions below are a shallow embedding of the TypeScript sources:
the diff engine (`computeLineDiff` from `createDiffEngine`), the attribution
engine (`applyDiffToAttribution`, `buildAttribution`,
`resolveAttributionForCommit`), the commit finalizer's note construction
(`handleCommitDetected`), the blame service (`blameCommitted` classification,
`blameUncommitted`), the commit-shape predicate (`looksLikeGitCommit`), the
trace log (`appendTrace`) and the checkpoint restore primitive
(`restoreWithBackup`). Asynchronous effects (git subprocesses, file I/O) are
modelled by explicit function parameters and explicit state passing.
-/

namespace PiRewind

/-- Hunk type from `diff.ts`: `"equal" | "add" | "delete"`. -/
inductive HunkType where
  | equal
  | add
  | delete
deriving DecidableEq, Repr

/-- Model of `DiffHunk` from `diff.ts`: `{type: HunkType, lines: string[]}`. -/
structure DiffHunk where
  type : HunkType
  lines : List String
deriving DecidableEq, Repr

/-- Model of `TraceRange` from `trace.ts`. -/
structure TraceRange where
  start_line : Nat
  end_line : Nat
deriving DecidableEq, Repr

/-- Contributor type from `trace.ts`: `"ai" | "human"`. -/
inductive ContributorType where
  | ai
  | human
deriving DecidableEq, Repr

/-- Model of `TraceContributor` from `trace.ts`. -/
structure TraceContributor where
  type : ContributorType
  model_id : Option String
deriving DecidableEq, Repr

/-- Model of `TraceConversation` from `trace.ts`. -/
structure TraceConversation where
  contributor : TraceContributor
  ranges : List TraceRange
deriving DecidableEq, Repr

/-- Model of `TraceFile` from `trace.ts`. -/
structure TraceFile where
  path : String
  conversations : List TraceConversation
deriving DecidableEq, Repr

/-- The `pi.*` metadata keys that the extension writes on every trace record
(`trace.ts` declares `metadata` as an open string map; the record constructors
in `index.ts` and `persist.ts` always populate exactly these keys, with
`pi.assistant_message` optional). -/
structure TraceMetadata where
  session_id : String
  entry_id : String
  before_sha : String
  after_sha : String
  user_message : String
  assistant_message : Option String
deriving DecidableEq, Repr

/-- Model of `TraceRecord` from `trace.ts` (version/vcs/tool fields are irrelevant to
the claims and omitted; `metadata` is optional exactly as in the interface). -/
structure TraceRecord where
  id : String
  timestamp : String
  files : List TraceFile
  metadata : Option TraceMetadata
deriving DecidableEq, Repr

/-- Model of `ResolvedRange` from `trace.ts`: `{start, end, trace_id}`, 1-based
inclusive. -/
structure ResolvedRange where
  start : Nat
  «end» : Nat
  trace_id : String
deriving DecidableEq, Repr

/-- Model of `TraceNote` from `trace.ts`. The `resolved` record is modelled as an
association list in insertion order. -/
structure TraceNote where
  traces : List TraceRecord
  resolved : Option (List (String × List ResolvedRange))
deriving DecidableEq, Repr

/-- An attribution entry: `string | null` in `blame.ts`. -/
abbrev AttributionEntry := Option String

/-- The diff callback `ComputeLineDiff` of `blame.ts`, with the async effect
dropped. -/
abbrev DiffFn := String → String → String → List DiffHunk

/-- Model of `computeLineDiff` from `createDiffEngine` in `diff.ts`: the identity fast
path returns `[]` when `beforeSha === afterSha`; otherwise the per-pair diff
map is consulted and a missing file yields `[]`. The cached fetch is modelled
by the pure `pairDiffs` parameter (caching does not change the value). -/
def computeLineDiff (pairDiffs : String → String → List (String × List DiffHunk))
    (beforeSha afterSha filePath : String) : List DiffHunk :=
  if beforeSha = afterSha then []
  else
    match (pairDiffs beforeSha afterSha).find? (fun pr => pr.1 == filePath) with
    | some pr => pr.2
    | none => []

/-- The loop body of `applyDiffToAttribution` in `blame.ts`, with the mutable
`result`/`srcIdx` turned into recursion over the hunk list. An `equal` hunk of
`n` lines copies `n` entries from `attribution` starting at `srcIdx` (missing
entries become `null`), a `delete` hunk advances `srcIdx`, an `add` hunk emits
`n` copies of `traceId`. -/
def applyDiffGo (attribution : List AttributionEntry) (traceId : AttributionEntry) :
    List DiffHunk → Nat → List AttributionEntry
  | [], _ => []
  | h :: rest, srcIdx =>
    match h.type with
    | HunkType.equal =>
        ((List.range h.lines.length).map fun k => (attribution.get? (srcIdx + k)).getD none)
          ++ applyDiffGo attribution traceId rest (srcIdx + h.lines.length)
    | HunkType.delete => applyDiffGo attribution traceId rest (srcIdx + h.lines.length)
    | HunkType.add =>
        List.replicate h.lines.length traceId ++ applyDiffGo attribution traceId rest srcIdx

/-- Model of `applyDiffToAttribution` from `blame.ts`. -/
def applyDiffToAttribution (attribution : List AttributionEntry) (hunks : List DiffHunk)
    (traceId : AttributionEntry) : List AttributionEntry :=
  applyDiffGo attribution traceId hunks 0

/-- Model of `getBeforeSha` in `buildAttribution`: `t.metadata?.["pi.before_sha"]`
(a record without metadata is modelled as yielding the empty string). -/
def getBeforeSha (t : TraceRecord) : String :=
  match t.metadata with
  | some m => m.before_sha
  | none => ""

/-- Model of `getAfterSha` in `buildAttribution`: `t.metadata?.["pi.after_sha"]`. -/
def getAfterSha (t : TraceRecord) : String :=
  match t.metadata with
  | some m => m.after_sha
  | none => ""

/-- The `for` loop of `buildAttribution` for indices `i ≥ 1`: first the gap
diff from the previous trace's after-sha (applied only when the shas differ
and the gap hunks are non-empty), then the trace's own diff (unguarded). -/
def buildLoop (d : DiffFn) (filePath : String) :
    TraceRecord → List AttributionEntry → List TraceRecord → List AttributionEntry
  | _, attribution, [] => attribution
  | prev, attribution, t :: rest =>
      let a1 :=
        if getAfterSha prev = getBeforeSha t then attribution
        else
          let gapHunks := d (getAfterSha prev) (getBeforeSha t) filePath
          if 0 < gapHunks.length then applyDiffToAttribution attribution gapHunks none
          else attribution
      let a2 := applyDiffToAttribution a1 (d (getBeforeSha t) (getAfterSha t) filePath) (some t.id)
      buildLoop d filePath t a2 rest

/-- Model of `buildAttribution` from `blame.ts`: the empty case, the single-trace fast
path, and the general loop followed by the optional terminal gap against
`commitSha`. -/
def buildAttribution (traces : List TraceRecord) (filePath : String) (d : DiffFn)
    (commitSha : Option String) : List AttributionEntry :=
  match traces with
  | [] => []
  | [t] =>
      let hunks := d (getBeforeSha t) (getAfterSha t) filePath
      let attribution := applyDiffToAttribution [] hunks (some t.id)
      match commitSha with
      | some sha =>
          let gapHunks := d (getAfterSha t) sha filePath
          if 0 < gapHunks.length then applyDiffToAttribution attribution gapHunks none
          else attribution
      | none => attribution
  | t0 :: rest =>
      let a0 := applyDiffToAttribution [] (d (getBeforeSha t0) (getAfterSha t0) filePath)
        (some t0.id)
      let a := buildLoop d filePath t0 a0 rest
      match commitSha with
      | some sha =>
          let lastT := rest.getLast?.getD t0
          let gapHunks := d (getAfterSha lastT) sha filePath
          if 0 < gapHunks.length then applyDiffToAttribution a gapHunks none
          else a
      | none => a

/-- The `while` loop of `resolveAttributionForCommit` that walks the
attribution vector collecting maximal runs of identical non-null entries.
`i` is the number of entries already consumed; the open run `some (s, tid)`
records a run of `tid` that started at 1-based line `s` and extends through
line `i`. Closing a run emits `{start := s, end := i, trace_id := tid}`. -/
def rrGo : List AttributionEntry → Nat → Option (Nat × String) → List ResolvedRange
  | [], _, none => []
  | [], i, some (s, tid) => [⟨s, i, tid⟩]
  | none :: rest, i, none => rrGo rest (i + 1) none
  | none :: rest, i, some (s, tid) => ⟨s, i, tid⟩ :: rrGo rest (i + 1) none
  | some t :: rest, i, none => rrGo rest (i + 1) (some (i + 1, t))
  | some t :: rest, i, some (s, tid) =>
      if t = tid then rrGo rest (i + 1) (some (s, tid))
      else ⟨s, i, tid⟩ :: rrGo rest (i + 1) (some (i + 1, t))

/-- Range resolution over a finished attribution vector (the per-file part of
`resolveAttributionForCommit` in `blame.ts`). -/
def resolveRanges (attribution : List AttributionEntry) : List ResolvedRange :=
  rrGo attribution 0 none

/-- Model of `usedTraceIds.add` on the JS `Set`, modelled as append-if-absent. -/
def addTraceId (ids : List String) (id : String) : List String :=
  if ids.contains id then ids else ids ++ [id]

/-- Model of `traces.filter(t => t.files.some(f => f.path === file))`. -/
def touchingFor (traces : List TraceRecord) (file : String) : List TraceRecord :=
  traces.filter fun t => t.files.any fun f => f.path == file

/-- One iteration of the `for (const file of committedFiles)` loop of
`resolveAttributionForCommit`: filter the traces touching the file, build the
attribution vector with the commit as terminal snapshot, resolve ranges,
record used trace ids, and keep the file only when it received ranges. -/
def racStep (traces : List TraceRecord) (commitSha : String) (d : DiffFn)
    (acc : List (String × List ResolvedRange) × List String) (file : String) :
    List (String × List ResolvedRange) × List String :=
  let touchingTraces := touchingFor traces file
  if touchingTraces.isEmpty then acc
  else
    let attribution := buildAttribution touchingTraces file d (some commitSha)
    let fileRanges := resolveRanges attribution
    let usedIds := fileRanges.foldl (fun ids r => addTraceId ids r.trace_id) acc.2
    if 0 < fileRanges.length then (acc.1 ++ [(file, fileRanges)], usedIds)
    else (acc.1, usedIds)

/-- Model of `resolveAttributionForCommit` from `blame.ts`: returns the resolved map
(as an association list in insertion order) and the set of used trace ids
(as a duplicate-free list in insertion order). -/
def resolveAttributionForCommit (traces : List TraceRecord) (committedFiles : List String)
    (commitSha : String) (d : DiffFn) :
    List (String × List ResolvedRange) × List String :=
  committedFiles.foldl (racStep traces commitSha d) ([], [])

/-- Record lookup `resolved[path]` on the association-list model. -/
def lookupRanges (resolved : List (String × List ResolvedRange)) (path : String) :
    Option (List ResolvedRange) :=
  (resolved.find? fun pr => pr.1 == path).map fun pr => pr.2

/- ------------------------------------------------------------------ -/
/- Lemmas about the attribution engine                                 -/
/- ------------------------------------------------------------------ -/

/-- Total number of lines occurring in `equal` hunks. -/
def equalLineCount (hunks : List DiffHunk) : Nat :=
  (hunks.map fun h => match h.type with | HunkType.equal => h.lines.length | _ => 0).sum

/-- Total number of lines occurring in `add` hunks. -/
def addLineCount (hunks : List DiffHunk) : Nat :=
  (hunks.map fun h => match h.type with | HunkType.add => h.lines.length | _ => 0).sum

lemma applyDiffGo_length (A : List AttributionEntry) (t : AttributionEntry) :
    ∀ (H : List DiffHunk) (i : Nat),
      (applyDiffGo A t H i).length = equalLineCount H + addLineCount H := by
  intro H
  induction H with
  | nil => intro i; simp [applyDiffGo, equalLineCount, addLineCount]
  | cons h rest ih =>
      intro i
      rcases h with ⟨ty, lines⟩
      cases ty <;> simp [applyDiffGo, equalLineCount, addLineCount] <;>
        simp [equalLineCount, addLineCount] at ih <;> rw [ih] <;> omega

/-- C1: for every attribution vector `A`, hunk sequence `H` and tag `t`,
`applyDiffToAttribution A H t` has length equal to the number of lines in the
equal hunks of `H` plus the number of lines in the add hunks of `H`,
independently of the length of `A`; and an equal hunk copies entries from `A`
with positions past the end of `A` filled by `null`. -/
theorem applyDiffToAttribution_length (A : List AttributionEntry) (H : List DiffHunk)
    (t : AttributionEntry) :
    ((applyDiffToAttribution A H t).length = equalLineCount H + addLineCount H) ∧
    (∀ lines : List String, applyDiffToAttribution A [⟨HunkType.equal, lines⟩] t =
      (List.range lines.length).map fun k => (A.get? k).getD none) := by
  constructor
  · simpa [applyDiffToAttribution] using applyDiffGo_length A t H 0
  · intro lines
    simp [applyDiffToAttribution, applyDiffGo]

/- ------------------------------------------------------------------ -/
/- Concrete scenario for spec scenario 3 (gap nullification)           -/
/- ------------------------------------------------------------------ -/

/-- The file path used by the concrete gap-nullification scenario. -/
def afile : String := "src/app.ts"

/-- An AI contributor with no model id. -/
def aiConv : TraceConversation := ⟨⟨ContributorType.ai, none⟩, []⟩

/-- Scenario trace `T1`: snapshot `s0 → s1`, adding `[a, b, c]`. -/
def trace1 : TraceRecord :=
  ⟨"T1", "2024-01-01T00:00:00Z", [⟨afile, [aiConv]⟩],
    some ⟨"sess", "e1", "s0", "s1", "add abc", none⟩⟩

/-- Scenario trace `T2`: empty trace, `before_sha = after_sha = "s2"`, so its
own diff is the empty hunk sequence via the identity fast path. -/
def trace2 : TraceRecord :=
  ⟨"T2", "2024-01-01T00:10:00Z", [⟨afile, [aiConv]⟩],
    some ⟨"sess", "e2", "s2", "s2", "only prints", none⟩⟩

/-- The gap diff `(s1 → s2)` of scenario 3: the human replaced `b` by `B`. -/
def gapHunksC2 : List DiffHunk :=
  [⟨HunkType.equal, ["a"]⟩, ⟨HunkType.delete, ["b"]⟩,
   ⟨HunkType.add, ["B"]⟩, ⟨HunkType.equal, ["c"]⟩]

/-- The per-pair diff store of the concrete scenario. -/
def pairDiffsC2 : String → String → List (String × List DiffHunk) := fun b a =>
  if b = "s0" ∧ a = "s1" then [(afile, [⟨HunkType.add, ["a", "b", "c"]⟩])]
  else if b = "s1" ∧ a = "s2" then [(afile, gapHunksC2)]
  else []

/-- The concrete diff engine of the scenario. -/
def dC2 : DiffFn := computeLineDiff pairDiffsC2

/-- C2: spec scenario 3 fails on the code. After the gap diff the vector is
`[T1, null, T1]` as the spec expects, but the unguarded application of `T2`'s
empty own diff then wipes it: `buildAttribution [T1, T2]` returns `[]`, not
`[T1, null, T1]`, and range resolution yields no ranges instead of
`[{1,1,T1},{3,3,T1}]`. The second conjunct shows the same hunks applied
through the guarded terminal-gap path (single trace `T1` with terminal
snapshot `s2`) do produce the vector the spec expects, isolating the missing
guard on the per-trace application as the slip. -/
theorem buildAttribution_gap_scenario_bug :
    buildAttribution [trace1, trace2] afile dC2 none = [] ∧
    buildAttribution [trace1] afile dC2 (some "s2") = [some "T1", none, some "T1"] ∧
    applyDiffToAttribution [some "T1", none, some "T1"] (dC2 "s2" "s2" afile) (some "T2") = [] ∧
    resolveRanges (buildAttribution [trace1, trace2] afile dC2 none) = [] ∧
    resolveRanges [some "T1", none, some "T1"] =
      [⟨1, 1, "T1"⟩, ⟨3, 3, "T1"⟩] := by
  refine ⟨by decide, by decide, by decide, by decide, by decide⟩

/-- C3: projecting through the diff of two identical snapshots is not a no-op
on a non-empty vector. The identity fast path does return the empty hunk
sequence, but `applyDiffToAttribution A [] t` returns `[]` for every `A`
(the result array only receives entries while iterating hunks), so for the
concrete vector `[some "t1"]` the claimed equality with `A` fails. -/
theorem applyDiffToAttribution_empty_clears :
    (∀ (pairDiffs : String → String → List (String × List DiffHunk)) (s p : String),
      computeLineDiff pairDiffs s s p = []) ∧
    (∀ (A : List AttributionEntry) (t : AttributionEntry),
      applyDiffToAttribution A [] t = []) ∧
    applyDiffToAttribution [some "t1"] (computeLineDiff pairDiffsC2 "s9" "s9" afile)
      (some "t2") ≠ [some "t1"] := by
  refine ⟨fun pairDiffs s p => by simp [computeLineDiff], fun A t => rfl, by decide⟩

/- ------------------------------------------------------------------ -/
/- Trace log: appendTrace                                              -/
/- ------------------------------------------------------------------ -/

/-- The trace-log cap `MAX_TRACES = 100` from `trace.ts`. -/
def MAX_TRACES : Nat := 100

/-- Model of `appendTrace` from `trace.ts`, as the pure transformation of the record
list stored in `traces.jsonl`: at or above the cap the kept records are
`records.slice(records.length - MAX_TRACES + 1)` (the newest `MAX_TRACES - 1`)
followed by the new record; below the cap the record is appended in place. -/
def appendTrace (records : List TraceRecord) (record : TraceRecord) : List TraceRecord :=
  if MAX_TRACES ≤ records.length then
    records.drop (records.length - MAX_TRACES + 1) ++ [record]
  else records ++ [record]

/-- C8: at or above the cap, the post-write log holds exactly `MAX_TRACES`
records, ends with the new record, and consists of the newest existing
records (a suffix of the old log) followed by the new one; below the cap the
record is appended with all existing records preserved in order. -/
theorem appendTrace_cap (records : List TraceRecord) (record : TraceRecord) :
    (MAX_TRACES ≤ records.length →
      (appendTrace records record).length = MAX_TRACES ∧
      (appendTrace records record).getLast? = some record ∧
      appendTrace records record =
        records.drop (records.length - MAX_TRACES + 1) ++ [record]) ∧
    (records.length < MAX_TRACES →
      appendTrace records record = records ++ [record]) := by
  constructor
  · intro h
    refine ⟨?_, ?_, ?_⟩
    · simp only [appendTrace, if_pos h, List.length_append, List.length_drop,
        List.length_singleton]
      simp only [MAX_TRACES] at h ⊢
      omega
    · simp [appendTrace, if_pos h]
    · simp [appendTrace, if_pos h]
  · intro h
    simp [appendTrace, Nat.not_le.mpr h]

/-- Witness for C8 at concrete logs of length 100 and 99. -/
theorem appendTrace_cap_witness :
    (appendTrace (List.replicate 100 trace1) trace2).length = MAX_TRACES ∧
    appendTrace (List.replicate 99 trace1) trace2 = List.replicate 99 trace1 ++ [trace2] := by
  refine ⟨((appendTrace_cap (List.replicate 100 trace1) trace2).1 ?_).1,
    (appendTrace_cap (List.replicate 99 trace1) trace2).2 ?_⟩
  · simp [MAX_TRACES]
  · simp [MAX_TRACES]

/- ------------------------------------------------------------------ -/
/- Commit-shape predicate: looksLikeGitCommit                          -/
/- ------------------------------------------------------------------ -/

/-- JS word character for the regex `\b` boundary: `[A-Za-z0-9_]`. -/
def isWordChar (c : Char) : Bool :=
  c.isAlpha || c.isDigit || c == '_'

/-- The ASCII members of the JS regex class `\s`. -/
def jsWs (c : Char) : Bool :=
  c == ' ' || c == '\t' || c == '\n' || c == '\r' || c == '\x0b' || c == '\x0c'

/-- Does `pat` occur at the head of `cs`? -/
def startsWithChars : List Char → List Char → Bool
  | [], _ => true
  | _ :: _, [] => false
  | p :: ps, c :: cs => p == c && startsWithChars ps cs

/-- Does `pat` occur anywhere in `cs` (regex substring test, used for the
`--dry-run` and `--amend` exclusions)? -/
def containsChars (pat : List Char) : List Char → Bool
  | [] => startsWithChars pat []
  | c :: cs => startsWithChars pat (c :: cs) || containsChars pat cs

/-- Match `lit` at the head of `cs` followed by the closing `\b`: the next
character is absent or not a word character (every literal used here ends in
a word character, for which `\b` means exactly that). -/
def litThenBoundary (lit : List Char) (cs : List Char) : Bool :=
  startsWithChars lit cs &&
    (match cs.drop lit.length with
     | [] => true
     | c :: _ => !isWordChar c)

/-- Match `\s+` followed by `lit\b`: consume one whitespace character, then
either match `lit` right away or consume more whitespace. -/
def wsThenLit (lit : List Char) : List Char → Bool
  | [] => false
  | c :: cs => jsWs c && (litThenBoundary lit cs || wsThenLit lit cs)

/-- Search for `/\bgit\s+<lit>\b/` in the character list; `prev` is the
character preceding the current position (for the leading `\b`, which sits
before the word character `g`). -/
def findGitPattern (lit : List Char) : Option Char → List Char → Bool
  | _, [] => false
  | prev, c :: cs =>
      ((match prev with | none => true | some p => !isWordChar p) &&
        startsWithChars ['g', 'i', 't'] (c :: cs) &&
        wsThenLit lit ((c :: cs).drop 3))
      || findGitPattern lit (some c) cs

/-- Model of `command.trim()`: strip leading and trailing whitespace (ASCII class). -/
def trimChars (cs : List Char) : List Char :=
  ((cs.dropWhile jsWs).reverse.dropWhile jsWs).reverse

/-- Model of `looksLikeGitCommit` from `persist.ts`: trim, require the regex
`\bgit\s+commit\b`, then exclude `\bgit\s+commit-tree\b`,
`\bgit\s+commit-graph\b`, `--dry-run` and `--amend`. -/
def looksLikeGitCommit (command : String) : Bool :=
  let cs := trimChars command.data
  if !findGitPattern "commit".data none cs then false
  else if findGitPattern "commit-tree".data none cs then false
  else if findGitPattern "commit-graph".data none cs then false
  else if containsChars "--dry-run".data cs then false
  else if containsChars "--amend".data cs then false
  else true

/-- C7: the commit-shape predicate accepts commands whose trimmed text
matches `git commit` as consecutive words and is hit by none of the four
exclusions, and rejects any command matching `git commit-tree` or
`git commit-graph` or containing `--dry-run` or `--amend`; in particular
`git commit --amend` is rejected while plain commit invocations are
accepted. -/
theorem looksLikeGitCommit_spec :
    (∀ command : String,
      findGitPattern "commit".data none (trimChars command.data) = true →
      findGitPattern "commit-tree".data none (trimChars command.data) = false →
      findGitPattern "commit-graph".data none (trimChars command.data) = false →
      containsChars "--dry-run".data (trimChars command.data) = false →
      containsChars "--amend".data (trimChars command.data) = false →
      looksLikeGitCommit command = true) ∧
    (∀ command : String,
      containsChars "--amend".data (trimChars command.data) = true →
      looksLikeGitCommit command = false) ∧
    (∀ command : String,
      containsChars "--dry-run".data (trimChars command.data) = true →
      looksLikeGitCommit command = false) ∧
    (∀ command : String,
      findGitPattern "commit-tree".data none (trimChars command.data) = true →
      looksLikeGitCommit command = false) ∧
    (∀ command : String,
      findGitPattern "commit-graph".data none (trimChars command.data) = true →
      looksLikeGitCommit command = false) ∧
    looksLikeGitCommit "git commit --amend" = false ∧
    looksLikeGitCommit "git commit -m msg" = true ∧
    looksLikeGitCommit "git commit-tree abc123" = false ∧
    looksLikeGitCommit "git commit-graph write" = false ∧
    looksLikeGitCommit "git commit --dry-run" = false ∧
    looksLikeGitCommit "git log" = false := by
  refine ⟨?_, ?_, ?_, ?_, ?_, by decide, by decide, by decide, by decide, by decide, by decide⟩
  · intro command h1 h2 h3 h4 h5
    simp [looksLikeGitCommit, h1, h2, h3, h4, h5]
  · intro command h
    simp [looksLikeGitCommit, h]
  · intro command h
    simp [looksLikeGitCommit, h]
  · intro command h
    simp [looksLikeGitCommit, h]
  · intro command h
    simp [looksLikeGitCommit, h]

/-- Witness for C7: the positive branch applied at `git commit`. -/
theorem looksLikeGitCommit_spec_witness :
    looksLikeGitCommit "git commit" = true :=
  looksLikeGitCommit_spec.1 "git commit" (by decide) (by decide) (by decide)
    (by decide) (by decide)

/- ------------------------------------------------------------------ -/
/- Blame service                                                       -/
/- ------------------------------------------------------------------ -/

/-- One parsed record of `git blame --line-porcelain` output
(`blameCommitted` in `blame.ts`). -/
structure BlameEntry where
  commitSha : String
  origLine : Nat
  finalLine : Nat
  filename : String
  content : String
deriving DecidableEq, Repr

/-- The `attribution` field of a `BlameResult` in `blame.ts`: one of the four
string labels or the structured prompt attribution. -/
inductive BlameAttribution where
  | human
  | untraced
  | unresolved
  | preSession
  | traced (traceId : String) (userMessage : String) (assistantMessage : Option String)
      (modelId : Option String) (timestamp : String) (commitSha : Option String)
      (sessionId : Option String) (entryId : Option String)
deriving DecidableEq, Repr

/-- Model of `BlameResult` from `blame.ts`. -/
structure BlameResult where
  lineNumber : Nat
  content : Option String
  attribution : BlameAttribution
deriving DecidableEq, Repr

/-- Extractor for `(trace.metadata?.["pi.user_message"] as string) || ""`. -/
def traceUserMessage (t : TraceRecord) : String :=
  match t.metadata with
  | some m => m.user_message
  | none => ""

/-- Extractor for `trace.metadata?.["pi.assistant_message"] as string | undefined`. -/
def traceAssistantMessage (t : TraceRecord) : Option String :=
  match t.metadata with
  | some m => m.assistant_message
  | none => none

/-- Extractor for `trace.metadata?.["pi.session_id"] as string | undefined`. -/
def traceSessionId (t : TraceRecord) : Option String :=
  match t.metadata with
  | some m => some m.session_id
  | none => none

/-- Extractor for `trace.metadata?.["pi.entry_id"] as string | undefined`. -/
def traceEntryId (t : TraceRecord) : Option String :=
  match t.metadata with
  | some m => some m.entry_id
  | none => none

/-- Extractor for `trace.files?.[0]?.conversations?.[0]?.contributor?.model_id`. -/
def traceModelId (t : TraceRecord) : Option String :=
  match t.files with
  | [] => none
  | f :: _ =>
    match f.conversations with
    | [] => none
    | c :: _ => c.contributor.model_id

/-- The covering test `entry.origLine >= r.start && entry.origLine <= r.end`
of `blameCommitted`. -/
def coversLine (line : Nat) (r : ResolvedRange) : Bool :=
  decide (r.start ≤ line ∧ line ≤ r.«end»)

/-- The per-entry classification of `blameCommitted` in `blame.ts`: the chain
of `continue`-guarded cases over the note, its resolved map, the covering
range and the backing trace. -/
def classifyCommittedEntry (getNote : String → Option TraceNote) (entry : BlameEntry) :
    BlameResult :=
  match getNote entry.commitSha with
  | none => ⟨entry.finalLine, some entry.content, BlameAttribution.human⟩
  | some note =>
    match note.resolved with
    | none => ⟨entry.finalLine, some entry.content, BlameAttribution.unresolved⟩
    | some resolved =>
      match lookupRanges resolved entry.filename with
      | none => ⟨entry.finalLine, some entry.content, BlameAttribution.untraced⟩
      | some fileRanges =>
        match fileRanges.find? (coversLine entry.origLine) with
        | none => ⟨entry.finalLine, some entry.content, BlameAttribution.untraced⟩
        | some matchingRange =>
          match note.traces.find? (fun t => t.id == matchingRange.trace_id) with
          | none => ⟨entry.finalLine, some entry.content, BlameAttribution.untraced⟩
          | some trace =>
            ⟨entry.finalLine, some entry.content,
              BlameAttribution.traced trace.id (traceUserMessage trace)
                (traceAssistantMessage trace) (traceModelId trace) trace.timestamp
                (some entry.commitSha) (traceSessionId trace) (traceEntryId trace)⟩

/-- Model of `blameCommitted` after porcelain parsing: classify each parsed entry.
The note cache of the source is semantically transparent and is modelled by
the pure lookup `getNote`. -/
def blameCommitted (getNote : String → Option TraceNote) (entries : List BlameEntry) :
    List BlameResult :=
  entries.map (classifyCommittedEntry getNote)

/-- C5: committed blame classifies every blamed line by the ladder of
`blameCommitted`: no note means `human`; a note without a resolved map means
`unresolved`; a resolved map lacking the file, or no range covering the
orig-line, or a covering range whose trace id has no backing trace in the
note, all mean `untraced`; otherwise the line is attributed to the first
backing trace, carrying its trace id, user message, optional assistant
message and model id, its timestamp, and the commit sha. -/
theorem blameCommitted_ladder (getNote : String → Option TraceNote) (entry : BlameEntry) :
    (∀ entries, blameCommitted getNote entries =
      entries.map (classifyCommittedEntry getNote)) ∧
    (getNote entry.commitSha = none →
      classifyCommittedEntry getNote entry =
        ⟨entry.finalLine, some entry.content, BlameAttribution.human⟩) ∧
    (∀ note, getNote entry.commitSha = some note → note.resolved = none →
      classifyCommittedEntry getNote entry =
        ⟨entry.finalLine, some entry.content, BlameAttribution.unresolved⟩) ∧
    (∀ note resolved, getNote entry.commitSha = some note →
      note.resolved = some resolved →
      lookupRanges resolved entry.filename = none →
      classifyCommittedEntry getNote entry =
        ⟨entry.finalLine, some entry.content, BlameAttribution.untraced⟩) ∧
    (∀ note resolved fileRanges, getNote entry.commitSha = some note →
      note.resolved = some resolved →
      lookupRanges resolved entry.filename = some fileRanges →
      (∀ r ∈ fileRanges, ¬(r.start ≤ entry.origLine ∧ entry.origLine ≤ r.«end»)) →
      classifyCommittedEntry getNote entry =
        ⟨entry.finalLine, some entry.content, BlameAttribution.untraced⟩) ∧
    (∀ note resolved fileRanges matchingRange, getNote entry.commitSha = some note →
      note.resolved = some resolved →
      lookupRanges resolved entry.filename = some fileRanges →
      fileRanges.find? (coversLine entry.origLine) = some matchingRange →
      (∀ t ∈ note.traces, t.id ≠ matchingRange.trace_id) →
      classifyCommittedEntry getNote entry =
        ⟨entry.finalLine, some entry.content, BlameAttribution.untraced⟩) ∧
    (∀ note resolved fileRanges matchingRange trace, getNote entry.commitSha = some note →
      note.resolved = some resolved →
      lookupRanges resolved entry.filename = some fileRanges →
      fileRanges.find? (coversLine entry.origLine) = some matchingRange →
      note.traces.find? (fun t => t.id == matchingRange.trace_id) = some trace →
      classifyCommittedEntry getNote entry =
        ⟨entry.finalLine, some entry.content,
          BlameAttribution.traced trace.id (traceUserMessage trace)
            (traceAssistantMessage trace) (traceModelId trace) trace.timestamp
            (some entry.commitSha) (traceSessionId trace) (traceEntryId trace)⟩) := by
  refine ⟨fun entries => rfl, ?_, ?_, ?_, ?_, ?_, ?_⟩
  · intro h; simp [classifyCommittedEntry, h]
  · intro note h1 h2; simp [classifyCommittedEntry, h1, h2]
  · intro note resolved h1 h2 h3; simp [classifyCommittedEntry, h1, h2, h3]
  · intro note resolved fileRanges h1 h2 h3 h4
    have hfind : fileRanges.find? (coversLine entry.origLine) = none := by
      rw [List.find?_eq_none]
      intro r hr
      simpa [coversLine] using h4 r hr
    simp [classifyCommittedEntry, h1, h2, h3, hfind]
  · intro note resolved fileRanges matchingRange h1 h2 h3 h4 h5
    have hfind : note.traces.find? (fun t => t.id == matchingRange.trace_id) = none := by
      rw [List.find?_eq_none]
      intro t ht
      simpa using h5 t ht
    simp [classifyCommittedEntry, h1, h2, h3, h4, hfind]
  · intro note resolved fileRanges matchingRange trace h1 h2 h3 h4 h5
    simp [classifyCommittedEntry, h1, h2, h3, h4, h5]

/-- Witness for C5: the `human` branch at a commit with no note. -/
theorem blameCommitted_ladder_witness :
    classifyCommittedEntry (fun _ => none) ⟨"d41d8cd9", 1, 1, afile, "x"⟩ =
      ⟨1, some "x", BlameAttribution.human⟩ :=
  (blameCommitted_ladder (fun _ => none) ⟨"d41d8cd9", 1, 1, afile, "x"⟩).2.1 rfl

/- ------------------------------------------------------------------ -/
/- Uncommitted blame                                                   -/
/- ------------------------------------------------------------------ -/

/-- Stable insertion of a trace into a list sorted by `timestamp` (equal keys
keep the earlier element first). -/
def insertByTimestamp (t : TraceRecord) : List TraceRecord → List TraceRecord
  | [] => [t]
  | u :: us =>
      if u.timestamp ≤ t.timestamp then u :: insertByTimestamp t us
      else t :: u :: us

/-- The stable sort
`.sort((a, b) => a.timestamp.localeCompare(b.timestamp))` of `blame.ts`,
with `localeCompare` modelled as lexicographic string order (the design notes
of the project state the two agree on its ISO-8601 timestamps). -/
def sortByTimestamp (ts : List TraceRecord) : List TraceRecord :=
  ts.foldl (fun acc t => insertByTimestamp t acc) []

/-- Model of `new Map(touchingTraces.map(t => [t.id, t])).get(traceId)`: the last
record with the id wins. -/
def lookupTraceLast (ts : List TraceRecord) (id : String) : Option TraceRecord :=
  ts.foldl (fun acc t => if t.id == id then some t else acc) none

/-- Model of `blameUncommitted` from `blame.ts`. The trace-log read is the
`allTraces` parameter and the freshly captured worktree snapshot is
`capturedSha`. The `startLine`/`endLine` tests follow the JS truthiness of
the source (`undefined` and `0` both fail). -/
def blameUncommitted (filePath : String) (allTraces : List TraceRecord) (d : DiffFn)
    (capturedSha : String) (startLine endLine : Option Nat) : List BlameResult :=
  let touchingTraces :=
    sortByTimestamp (allTraces.filter fun t => t.files.any fun f => f.path == filePath)
  match touchingTraces with
  | [] =>
      match startLine, endLine with
      | some s, some e =>
          if s ≠ 0 ∧ e ≠ 0 then
            (List.range (if s ≤ e then e - s + 1 else 0)).map fun i =>
              ⟨s + i, none, BlameAttribution.preSession⟩
          else []
      | _, _ => []
  | t0 :: rest =>
      let ts := t0 :: rest
      let attribution := buildAttribution ts filePath d none
      let lastAfterSha := getAfterSha (rest.getLast?.getD t0)
      let finalAttribution :=
        if lastAfterSha = capturedSha then attribution
        else
          let gapHunks := d lastAfterSha capturedSha filePath
          if 0 < gapHunks.length then applyDiffToAttribution attribution gapHunks none
          else attribution
      let start := match startLine with
        | some s => if s ≠ 0 then s - 1 else 0
        | none => 0
      let stop := match endLine with
        | some e => if e ≠ 0 then e else finalAttribution.length
        | none => finalAttribution.length
      let slice := (finalAttribution.drop start).take (stop - start)
      let lineBase := match startLine with
        | some s => if s ≠ 0 then s else 1
        | none => 1
      slice.enum.map fun pr =>
        match pr.2 with
        | none => ⟨lineBase + pr.1, none, BlameAttribution.preSession⟩
        | some traceId =>
          match lookupTraceLast ts traceId with
          | none => ⟨lineBase + pr.1, none, BlameAttribution.preSession⟩
          | some trace =>
            ⟨lineBase + pr.1, none,
              BlameAttribution.traced trace.id (traceUserMessage trace)
                (traceAssistantMessage trace) (traceModelId trace) trace.timestamp
                none (traceSessionId trace) (traceEntryId trace)⟩

/-- C6 counterexample: with no trace touching the requested path and no
explicit line range (the whole-file request), `blameUncommitted` returns the
empty list — it reports no `pre-session` lines at all, and it never consults
the file, so no whole-file request can yield one entry per file line. -/
theorem blameUncommitted_wholefile_empty :
    blameUncommitted afile [] dC2 "w0" none none = [] ∧
    blameUncommitted "other.ts" [trace1] dC2 "w0" none none = [] := by
  exact ⟨by decide, by decide⟩

/-- C6 (amended): when no trace in the log touches the requested path and an
explicit non-zero line range `[s, e]` is given, `blameUncommitted` returns
one `pre-session` entry per requested line with consecutive line numbers from
`s` to `e`; with no explicit range (the whole-file request) it returns the
empty list. -/
theorem blameUncommitted_no_traces (filePath : String) (allTraces : List TraceRecord)
    (d : DiffFn) (capturedSha : String)
    (hnone : allTraces.filter (fun t => t.files.any fun f => f.path == filePath) = []) :
    (∀ s e : Nat, s ≠ 0 → e ≠ 0 → s ≤ e →
      blameUncommitted filePath allTraces d capturedSha (some s) (some e) =
        (List.range (e - s + 1)).map fun i => ⟨s + i, none, BlameAttribution.preSession⟩) ∧
    blameUncommitted filePath allTraces d capturedSha none none = [] := by
  constructor
  · intro s e hs he hse
    simp only [blameUncommitted, hnone, sortByTimestamp, List.foldl_nil]
    simp [hs, he, hse]
  · simp only [blameUncommitted, hnone, sortByTimestamp, List.foldl_nil]

/-- Witness for C6's amended theorem at a concrete empty log and range 2–3. -/
theorem blameUncommitted_no_traces_witness :
    blameUncommitted afile [] dC2 "w0" (some 2) (some 3) =
      [⟨2, none, BlameAttribution.preSession⟩, ⟨3, none, BlameAttribution.preSession⟩] := by
  have h := (blameUncommitted_no_traces afile [] dC2 "w0" rfl).1 2 3
    (by decide) (by decide) (by decide)
  rw [h]
  decide

/- ------------------------------------------------------------------ -/
/- Checkpoint manager: restore with backup                             -/
/- ------------------------------------------------------------------ -/

/-- A git ref: name and the commit sha it points at. -/
structure RefEntry where
  name : String
  sha : String
deriving DecidableEq, Repr

/-- The state touched by `restoreWithBackup` in `index.ts`: the refs under
`refs/pi-checkpoints/` kept in creation order (oldest first), the current
working tree (identified by the snapshot sha `captureWorktree` would produce
for it) and the clock used for `Date.now()` naming. -/
structure RewindState where
  refs : List RefEntry
  worktree : String
  now : Nat
deriving DecidableEq, Repr

/-- The common ref namespace `REF_PREFIX` of `index.ts`. -/
def refsRoot : String := "refs/pi-checkpoints/"

/-- Model of `BEFORE_RESTORE_PREFIX` of `index.ts`. -/
def beforeRestoreTag : String := "before-restore-"

/-- The full ref name `REF_PREFIX + BEFORE_RESTORE_PREFIX + sessionId + "-" +
Date.now()` created by `restoreWithBackup`. -/
def beforeRestoreName (sessionId : String) (ts : Nat) : String :=
  refsRoot ++ beforeRestoreTag ++ sessionId ++ "-" ++ toString ts

/-- Membership in the glob
`refs/pi-checkpoints/before-restore-<sessionId>-*` used by
`findBeforeRestoreRef`. -/
def isBeforeRestore (sessionId : String) (e : RefEntry) : Bool :=
  startsWithChars (refsRoot ++ beforeRestoreTag ++ sessionId ++ "-").data e.name.data

/-- Model of `findBeforeRestoreRef` in `index.ts`: `for-each-ref --sort=-creatordate
--count=1` over the session-scoped glob, i.e. the newest matching ref —
the last match in creation order. -/
def findBeforeRestoreRef (refs : List RefEntry) (sessionId : String) : Option RefEntry :=
  (refs.filter (isBeforeRestore sessionId)).getLast?

/-- Model of `git update-ref <name> <sha>`: overwrite in place or append a new ref. -/
def setRef (refs : List RefEntry) (name sha : String) : List RefEntry :=
  if refs.any (fun e => e.name == name) then
    refs.map fun e => if e.name == name then ⟨name, sha⟩ else e
  else refs ++ [⟨name, sha⟩]

/-- Model of `git update-ref -d <name>`. -/
def delRef (refs : List RefEntry) (name : String) : List RefEntry :=
  refs.filter fun e => !(e.name == name)

/-- Resolve the checkout target: a ref name resolves to the sha it points at,
anything else (a raw commit sha, as in the undo path) denotes itself. -/
def resolveTarget (refs : List RefEntry) (target : String) : String :=
  match refs.find? (fun e => e.name == target) with
  | some e => e.sha
  | none => target

/-- Model of `restoreWithBackup` from `index.ts`, step by step: read the existing
session-scoped before-restore ref, capture the current tree, create the new
before-restore ref for this session, delete the previous one if it existed,
then check the target out into the working tree. -/
def restoreWithBackup (s : RewindState) (targetRef : String) (sessionId : String) :
    RewindState :=
  let existingBackup := findBeforeRestoreRef s.refs sessionId
  let backupCommit := s.worktree
  let newName := beforeRestoreName sessionId s.now
  let refs1 := setRef s.refs newName backupCommit
  let refs2 := match existingBackup with
    | some e => delRef refs1 e.name
    | none => refs1
  { refs := refs2, worktree := resolveTarget refs2 targetRef, now := s.now + 1 }

lemma startsWithChars_append (l m : List Char) : startsWithChars l (l ++ m) = true := by
  induction l with
  | nil => rfl
  | cons c cs ih => simp [startsWithChars, ih]

lemma isBeforeRestore_newName (sessionId sha : String) (ts : Nat) :
    isBeforeRestore sessionId ⟨beforeRestoreName sessionId ts, sha⟩ = true := by
  simp only [isBeforeRestore, beforeRestoreName]
  have hdata : (refsRoot ++ beforeRestoreTag ++ sessionId ++ "-" ++ toString ts).data =
      (refsRoot ++ beforeRestoreTag ++ sessionId ++ "-").data ++ (toString ts).data := by
    simp [String.data_append]
  rw [hdata]
  exact startsWithChars_append _ _

lemma beforeRestoreName_startsRoot (sessionId : String) (ts : Nat) :
    startsWithChars refsRoot.data (beforeRestoreName sessionId ts).data = true := by
  have hdata : (beforeRestoreName sessionId ts).data =
      refsRoot.data ++ (beforeRestoreTag.data ++ sessionId.data ++ "-".data ++
        (toString ts).data) := by
    simp [beforeRestoreName, String.data_append]
  rw [hdata]
  exact startsWithChars_append _ _

lemma setRef_fresh (refs : List RefEntry) (name sha : String)
    (h : ∀ e ∈ refs, e.name ≠ name) :
    setRef refs name sha = refs ++ [⟨name, sha⟩] := by
  have hany : refs.any (fun e => e.name == name) = false := by
    simp only [List.any_eq_false]
    intro e he
    simpa using h e he
  simp [setRef, hany]

lemma filter_single_of_getLast? {α : Type} (p : α → Bool) (l : List α) (e : α)
    (hlast : (l.filter p).getLast? = some e) (hlen : (l.filter p).length ≤ 1) :
    l.filter p = [e] := by
  rcases hfp : l.filter p with _ | ⟨x, xs⟩
  · rw [hfp] at hlast; simp at hlast
  · rw [hfp] at hlast hlen
    rcases xs with _ | ⟨y, ys⟩
    · simp only [List.getLast?_singleton, Option.some.injEq] at hlast
      rw [hlast]
    · simp at hlen

/-- One run of the restore primitive under the cardinality invariant and a
fresh backup name: the surviving refs are the old refs minus the previous
session backup (`X`), followed by the fresh backup pointing at the
pre-restore tree; the working tree becomes the resolved target; the clock
advances. -/
lemma restore_step (s : RewindState) (target sessionId : String)
    (hcount : (s.refs.filter (isBeforeRestore sessionId)).length ≤ 1)
    (hfresh : ∀ e ∈ s.refs, e.name ≠ beforeRestoreName sessionId s.now) :
    ∃ X : List RefEntry, (∀ x ∈ X, x ∈ s.refs) ∧
      X.filter (isBeforeRestore sessionId) = [] ∧
      restoreWithBackup s target sessionId =
        ⟨X ++ [⟨beforeRestoreName sessionId s.now, s.worktree⟩],
          resolveTarget (X ++ [⟨beforeRestoreName sessionId s.now, s.worktree⟩]) target,
          s.now + 1⟩ := by
  have hset : setRef s.refs (beforeRestoreName sessionId s.now) s.worktree =
      s.refs ++ [⟨beforeRestoreName sessionId s.now, s.worktree⟩] :=
    setRef_fresh _ _ _ hfresh
  cases hfind : findBeforeRestoreRef s.refs sessionId with
  | none =>
      refine ⟨s.refs, fun x hx => hx, ?_, ?_⟩
      · simpa [findBeforeRestoreRef, List.getLast?_eq_none_iff] using hfind
      · simp only [restoreWithBackup, hfind, hset]
  | some e =>
      have hfil : s.refs.filter (isBeforeRestore sessionId) = [e] :=
        filter_single_of_getLast? _ _ _ (by simpa [findBeforeRestoreRef] using hfind) hcount
      have hmem : e ∈ s.refs := by
        have hm : e ∈ s.refs.filter (isBeforeRestore sessionId) := by simp [hfil]
        exact List.mem_of_mem_filter hm
      have hne : e.name ≠ beforeRestoreName sessionId s.now := hfresh e hmem
      have hd : delRef (s.refs ++ [⟨beforeRestoreName sessionId s.now, s.worktree⟩]) e.name =
          delRef s.refs e.name ++ [⟨beforeRestoreName sessionId s.now, s.worktree⟩] := by
        simp only [delRef, List.filter_append]
        congr 1
        simp only [List.filter]
        have : ((⟨beforeRestoreName sessionId s.now, s.worktree⟩ : RefEntry).name == e.name)
            = false := by
          simpa using fun hh => hne hh.symm
        simp [this]
      refine ⟨delRef s.refs e.name, ?_, ?_, ?_⟩
      · intro x hx; exact List.mem_of_mem_filter hx
      · rw [List.filter_eq_nil_iff]
        intro x hx hbr
        have hx' : x ∈ s.refs := List.mem_of_mem_filter hx
        have hxf : x ∈ s.refs.filter (isBeforeRestore sessionId) :=
          List.mem_filter.mpr ⟨hx', hbr⟩
        rw [hfil] at hxf
        have hxe : x = e := by simpa using hxf
        have hkeep := List.of_mem_filter hx
        rw [hxe] at hkeep
        simp at hkeep
      · simp only [restoreWithBackup, hfind, hset, hd]

/-- C9: the restore primitive captures the current tree, creates the fresh
session-scoped before-restore ref pointing at it, deletes the previous
session backup, then checks out the target. Provided the state has at most
one before-restore ref for the session, the timestamped backup names are
unused (the clock is monotone) and the worktree sha is not a ref name, the
post-state has exactly one before-restore ref for the session and it points
at the pre-restore working tree, while the working tree becomes the resolved
target; a subsequent undo — restoring from that backup's sha — brings the
pre-restore tree back and leaves a single fresh before-restore ref pointing
at the tree the undo started from. -/
theorem restoreWithBackup_spec (s : RewindState) (target sessionId : String)
    (hcount : (s.refs.filter (isBeforeRestore sessionId)).length ≤ 1)
    (hfresh : ∀ e ∈ s.refs, e.name ≠ beforeRestoreName sessionId s.now)
    (hfresh2 : ∀ e ∈ s.refs, e.name ≠ beforeRestoreName sessionId (s.now + 1))
    (hname : beforeRestoreName sessionId s.now ≠ beforeRestoreName sessionId (s.now + 1))
    (hsha : ¬ startsWithChars refsRoot.data s.worktree.data = true)
    (hwt : ∀ e ∈ s.refs, e.name ≠ s.worktree) :
    (restoreWithBackup s target sessionId).refs.filter (isBeforeRestore sessionId) =
      [⟨beforeRestoreName sessionId s.now, s.worktree⟩] ∧
    (restoreWithBackup s target sessionId).worktree =
      resolveTarget (restoreWithBackup s target sessionId).refs target ∧
    (restoreWithBackup (restoreWithBackup s target sessionId) s.worktree
        sessionId).worktree = s.worktree ∧
    (restoreWithBackup (restoreWithBackup s target sessionId) s.worktree
        sessionId).refs.filter (isBeforeRestore sessionId) =
      [⟨beforeRestoreName sessionId (s.now + 1),
        (restoreWithBackup s target sessionId).worktree⟩] := by
  obtain ⟨X, hXsub, hXfil, hS1⟩ := restore_step s target sessionId hcount hfresh
  have hfil1 : (restoreWithBackup s target sessionId).refs.filter (isBeforeRestore sessionId) =
      [⟨beforeRestoreName sessionId s.now, s.worktree⟩] := by
    rw [hS1]
    simp [List.filter_append, hXfil, isBeforeRestore_newName]
  refine ⟨hfil1, by rw [hS1], ?_, ?_⟩
  all_goals {
    have hnow1 : (restoreWithBackup s target sessionId).now = s.now + 1 := by rw [hS1]
    have hrefs1 : (restoreWithBackup s target sessionId).refs =
        X ++ [⟨beforeRestoreName sessionId s.now, s.worktree⟩] := by rw [hS1]
    have hcount1 : ((restoreWithBackup s target sessionId).refs.filter
        (isBeforeRestore sessionId)).length ≤ 1 := by rw [hfil1]; simp
    have hfresh1 : ∀ e ∈ (restoreWithBackup s target sessionId).refs,
        e.name ≠ beforeRestoreName sessionId (restoreWithBackup s target sessionId).now := by
      rw [hrefs1, hnow1]
      intro e he
      rcases List.mem_append.mp he with he' | he'
      · exact hfresh2 e (hXsub e he')
      · have : e = ⟨beforeRestoreName sessionId s.now, s.worktree⟩ := by simpa using he'
        rw [this]
        exact hname
    obtain ⟨X', hX'sub, hX'fil, hS2⟩ :=
      restore_step (restoreWithBackup s target sessionId) s.worktree sessionId hcount1 hfresh1
    have hnames : ∀ y ∈ X' ++ [(⟨beforeRestoreName sessionId
        (restoreWithBackup s target sessionId).now,
        (restoreWithBackup s target sessionId).worktree⟩ : RefEntry)],
        (y.name == s.worktree) = false := by
      intro y hy
      rcases List.mem_append.mp hy with hy' | hy'
      · have hy2 : y ∈ (restoreWithBackup s target sessionId).refs := hX'sub y hy'
        rw [hrefs1] at hy2
        rcases List.mem_append.mp hy2 with hy3 | hy3
        · simpa using hwt y (hXsub y hy3)
        · have : y = ⟨beforeRestoreName sessionId s.now, s.worktree⟩ := by simpa using hy3
          rw [this]
          simp only [beq_eq_false_iff_ne, ne_eq]
          intro hcontra
          exact hsha (hcontra ▸ beforeRestoreName_startsRoot sessionId s.now)
      · have : y = ⟨beforeRestoreName sessionId (restoreWithBackup s target sessionId).now,
            (restoreWithBackup s target sessionId).worktree⟩ := by simpa using hy'
        rw [this]
        simp only [beq_eq_false_iff_ne, ne_eq]
        intro hcontra
        exact hsha (hcontra ▸ beforeRestoreName_startsRoot sessionId
          (restoreWithBackup s target sessionId).now)
    have hres : resolveTarget (X' ++ [⟨beforeRestoreName sessionId
        (restoreWithBackup s target sessionId).now,
        (restoreWithBackup s target sessionId).worktree⟩]) s.worktree = s.worktree := by
      have hfind : (X' ++ [(⟨beforeRestoreName sessionId
          (restoreWithBackup s target sessionId).now,
          (restoreWithBackup s target sessionId).worktree⟩ : RefEntry)]).find?
          (fun e => e.name == s.worktree) = none := by
        rw [List.find?_eq_none]
        intro y hy
        simp [hnames y hy]
      simp [resolveTarget, hfind]
    first
    | (rw [hS2]; exact hres)
    | (rw [hS2]
       simp only [List.filter_append, hX'fil, List.nil_append, hnow1]
       simp [isBeforeRestore_newName])
  }

/-- A concrete checkpoint ref for the C9 witness. -/
def chkRef : RefEntry := ⟨"refs/pi-checkpoints/checkpoint-s-1-e", "c1"⟩

/-- Witness for C9 at a concrete one-checkpoint state: after a restore there
is exactly one session backup pointing at the pre-restore tree `w0`, and an
undo restores `w0`. -/
theorem restoreWithBackup_spec_witness :
    (restoreWithBackup ⟨[chkRef], "w0", 5⟩ chkRef.name "sess").refs.filter
        (isBeforeRestore "sess") = [⟨beforeRestoreName "sess" 5, "w0"⟩] ∧
    (restoreWithBackup (restoreWithBackup ⟨[chkRef], "w0", 5⟩ chkRef.name "sess")
        "w0" "sess").worktree = "w0" := by
  have h := restoreWithBackup_spec ⟨[chkRef], "w0", 5⟩ chkRef.name "sess"
    (by decide) (by decide) (by decide) (by decide) (by decide) (by decide)
  exact ⟨h.1, h.2.2.1⟩

/- ------------------------------------------------------------------ -/
/- Well-formedness of range resolution                                 -/
/- ------------------------------------------------------------------ -/

/-- Holds when `r` describes a maximal run of `r.trace_id` in the attribution vector
`A` (1-based inclusive lines): every line of the range holds the id, the
entry before the range (if any) differs, and the entry after the range (if
any) differs. -/
def RangeSpec (A : List AttributionEntry) (r : ResolvedRange) : Prop :=
  1 ≤ r.start ∧ r.start ≤ r.«end» ∧ r.«end» ≤ A.length ∧
  (∀ k, r.start ≤ k → k ≤ r.«end» → A.get? (k - 1) = some (some r.trace_id)) ∧
  (2 ≤ r.start → A.get? (r.start - 2) ≠ some (some r.trace_id)) ∧
  A.get? r.«end» ≠ some (some r.trace_id)

lemma rrGo_spec (A : List AttributionEntry) :
    ∀ (a : List AttributionEntry) (i : Nat) (st : Option (Nat × String)),
      A.drop i = a →
      (st = none → i = 0 ∨ A.get? (i - 1) = some none) →
      (∀ s tid, st = some (s, tid) →
        1 ≤ s ∧ s ≤ i ∧
        (∀ k, s ≤ k → k ≤ i → A.get? (k - 1) = some (some tid)) ∧
        (2 ≤ s → A.get? (s - 2) ≠ some (some tid))) →
      ∀ r ∈ rrGo a i st, RangeSpec A r := by
  intro a
  induction a with
  | nil =>
      intro i st hdrop hnone hsome r hr
      match st with
      | none => simp [rrGo] at hr
      | some (s, tid) =>
          obtain ⟨h1, h2, h3, h4⟩ := hsome s tid rfl
          simp only [rrGo, List.mem_singleton] at hr
          subst hr
          have hilen : i ≤ A.length := by
            have hget := h3 i h2 le_rfl
            have hlt : i - 1 < A.length := by
              by_contra hcon
              rw [List.get?_eq_none.mpr (Nat.le_of_not_lt hcon)] at hget
              cases hget
            omega
          have higeq : A.length ≤ i := by
            have hlen := congrArg List.length hdrop
            simp at hlen
            omega
          refine ⟨h1, h2, hilen, h3, h4, ?_⟩
          show A.get? i ≠ some (some tid)
          rw [List.get?_eq_none.mpr (by omega)]
          simp
  | cons e rest ih =>
      intro i st hdrop hnone hsome r hr
      have hgetI : A.get? i = some e := by
        have := List.get?_drop A i 0
        rw [hdrop] at this
        simpa using this.symm
      have hdrop' : A.drop (i + 1) = rest := by
        rw [← List.tail_drop, hdrop]
        rfl
      match e, st with
      | none, none =>
          simp only [rrGo] at hr
          exact ih (i + 1) none hdrop' (fun _ => Or.inr (by simpa using hgetI))
            (fun s tid h => by cases h) r hr
      | none, some (s, tid) =>
          obtain ⟨h1, h2, h3, h4⟩ := hsome s tid rfl
          simp only [rrGo, List.mem_cons] at hr
          rcases hr with hr | hr
          · subst hr
            have hilen : i ≤ A.length := by
              have hget := h3 i h2 le_rfl
              have hlt : i - 1 < A.length := by
                by_contra hcon
                rw [List.get?_eq_none.mpr (Nat.le_of_not_lt hcon)] at hget
                cases hget
              omega
            refine ⟨h1, h2, hilen, h3, h4, ?_⟩
            rw [hgetI]
            simp
          · exact ih (i + 1) none hdrop' (fun _ => Or.inr (by simpa using hgetI))
              (fun s' tid' h => by cases h) r hr
      | some t, none =>
          simp only [rrGo] at hr
          refine ih (i + 1) (some (i + 1, t)) hdrop' (fun h => by cases h) ?_ r hr
          intro s' tid' h
          obtain ⟨hs, ht⟩ : s' = i + 1 ∧ tid' = t := by
            constructor <;> cases h <;> rfl
          subst hs; subst ht
          refine ⟨by omega, le_rfl, ?_, ?_⟩
          · intro k hk1 hk2
            have : k = i + 1 := by omega
            subst this
            simpa using hgetI
          · intro h2i
            rcases hnone rfl with h0 | hprev
            · omega
            · have : i + 1 - 2 = i - 1 := by omega
              rw [this, hprev]
              simp
      | some t, some (s, tid) =>
          obtain ⟨h1, h2, h3, h4⟩ := hsome s tid rfl
          by_cases hteq : t = tid
          · subst hteq
            simp only [rrGo, if_pos rfl] at hr
            refine ih (i + 1) (some (s, t)) hdrop' (fun h => by cases h) ?_ r hr
            intro s' tid' h
            obtain ⟨hs, ht⟩ : s' = s ∧ tid' = t := by
              constructor <;> cases h <;> rfl
            subst hs; subst ht
            refine ⟨h1, by omega, ?_, h4⟩
            intro k hk1 hk2
            rcases Nat.lt_or_ge k (i + 1) with hk | hk
            · exact h3 k hk1 (by omega)
            · have : k = i + 1 := by omega
              subst this
              simpa using hgetI
          · simp only [rrGo, if_neg hteq, List.mem_cons] at hr
            rcases hr with hr | hr
            · subst hr
              have hilen : i ≤ A.length := by
                have hget := h3 i h2 le_rfl
                have hlt : i - 1 < A.length := by
                  by_contra hcon
                  rw [List.get?_eq_none.mpr (Nat.le_of_not_lt hcon)] at hget
                  cases hget
                omega
              refine ⟨h1, h2, hilen, h3, h4, ?_⟩
              show A.get? i ≠ some (some tid)
              rw [hgetI]
              simpa using hteq
            · refine ih (i + 1) (some (i + 1, t)) hdrop' (fun h => by cases h) ?_ r hr
              intro s' tid' h
              obtain ⟨hs, ht⟩ : s' = i + 1 ∧ tid' = t := by
                constructor <;> cases h <;> rfl
              subst hs; subst ht
              refine ⟨by omega, le_rfl, ?_, ?_⟩
              · intro k hk1 hk2
                have : k = i + 1 := by omega
                subst this
                simpa using hgetI
              · intro h2i
                have hidx : i + 1 - 2 = i - 1 := by omega
                rw [hidx, h3 i h2 le_rfl]
                simpa using Ne.symm hteq

/-- Every range emitted by `resolveRanges` is a maximal run of its id. -/
lemma resolveRanges_spec (A : List AttributionEntry) :
    ∀ r ∈ resolveRanges A, RangeSpec A r :=
  fun r hr => rrGo_spec A A 0 none rfl (fun _ => Or.inl rfl)
    (fun _ _ h => by cases h) r hr

lemma rrGo_start_lb :
    ∀ (a : List AttributionEntry) (i : Nat) (st : Option (Nat × String)),
      (∀ s tid, st = some (s, tid) → s ≤ i + 1) →
      ∀ r ∈ rrGo a i st,
        (match st with | some p => p.1 | none => i + 1) ≤ r.start := by
  intro a
  induction a with
  | nil =>
      intro i st hst r hr
      match st with
      | none => simp [rrGo] at hr
      | some (s, tid) =>
          simp only [rrGo, List.mem_singleton] at hr
          subst hr
          exact le_rfl
  | cons e rest ih =>
      intro i st hst r hr
      match e, st with
      | none, none =>
          simp only [rrGo] at hr
          have h2 : i + 2 ≤ r.start := ih (i + 1) none (fun _ _ h => by cases h) r hr
          show i + 1 ≤ r.start
          omega
      | none, some (s, tid) =>
          have hs := hst s tid rfl
          simp only [rrGo, List.mem_cons] at hr
          show s ≤ r.start
          rcases hr with hr | hr
          · subst hr; exact le_rfl
          · have h2 : i + 2 ≤ r.start := ih (i + 1) none (fun _ _ h => by cases h) r hr
            omega
      | some t, none =>
          simp only [rrGo] at hr
          show i + 1 ≤ r.start
          exact ih (i + 1) (some (i + 1, t)) (fun s' tid' h => by cases h; omega) r hr
      | some t, some (s, tid) =>
          have hs := hst s tid rfl
          show s ≤ r.start
          by_cases hteq : t = tid
          · subst hteq
            simp only [rrGo, if_pos rfl] at hr
            exact ih (i + 1) (some (s, t)) (fun s' tid' h => by cases h; omega) r hr
          · simp only [rrGo, if_neg hteq, List.mem_cons] at hr
            rcases hr with hr | hr
            · subst hr; exact le_rfl
            · have h2 : i + 1 ≤ r.start :=
                ih (i + 1) (some (i + 1, t)) (fun s' tid' h => by cases h; omega) r hr
              omega

lemma rrGo_chain :
    ∀ (a : List AttributionEntry) (i : Nat) (st : Option (Nat × String)),
      (∀ s tid, st = some (s, tid) → s ≤ i + 1) →
      List.Chain' (fun r1 r2 => r1.«end» < r2.start) (rrGo a i st) := by
  intro a
  induction a with
  | nil =>
      intro i st hst
      match st with
      | none => simp [rrGo]
      | some (s, tid) => simp [rrGo]
  | cons e rest ih =>
      intro i st hst
      match e, st with
      | none, none =>
          simp only [rrGo]
          exact ih (i + 1) none (fun _ _ h => by cases h)
      | none, some (s, tid) =>
          simp only [rrGo]
          rw [List.chain'_cons']
          refine ⟨?_, ih (i + 1) none (fun _ _ h => by cases h)⟩
          intro y hy
          have hmem := List.mem_of_mem_head? hy
          have h2 : i + 2 ≤ y.start :=
            rrGo_start_lb rest (i + 1) none (fun _ _ h => by cases h) y hmem
          show i < y.start
          omega
      | some t, none =>
          simp only [rrGo]
          exact ih (i + 1) (some (i + 1, t)) (fun s' tid' h => by cases h; omega)
      | some t, some (s, tid) =>
          have hs := hst s tid rfl
          by_cases hteq : t = tid
          · subst hteq
            simp only [rrGo, if_pos rfl]
            exact ih (i + 1) (some (s, t)) (fun s' tid' h => by cases h; omega)
          · simp only [rrGo, if_neg hteq]
            rw [List.chain'_cons']
            refine ⟨?_, ih (i + 1) (some (i + 1, t)) (fun s' tid' h => by cases h; omega)⟩
            intro y hy
            have hmem := List.mem_of_mem_head? hy
            have h2 : i + 1 ≤ y.start :=
              rrGo_start_lb rest (i + 1) (some (i + 1, t))
                (fun s' tid' h => by cases h; omega) y hmem
            show i < y.start
            omega

/-- The ranges of `resolveRanges` are strictly ascending and disjoint: each
range starts strictly after the previous range ends. -/
lemma resolveRanges_chain (A : List AttributionEntry) :
    List.Chain' (fun r1 r2 => r1.«end» < r2.start) (resolveRanges A) :=
  rrGo_chain A 0 none (fun _ _ h => by cases h)

/-- The id of every resolved range occurs in the vector. -/
lemma resolveRanges_trace_id_mem (A : List AttributionEntry) (r : ResolvedRange)
    (hr : r ∈ resolveRanges A) : some r.trace_id ∈ A := by
  obtain ⟨h1, h2, _, h3, _, _⟩ := resolveRanges_spec A r hr
  exact List.get?_mem (h3 r.start le_rfl h2)

/- ------------------------------------------------------------------ -/
/- Provenance of attribution entries                                   -/
/- ------------------------------------------------------------------ -/

lemma applyDiffGo_mem (A : List AttributionEntry) (t : AttributionEntry) :
    ∀ (H : List DiffHunk) (i : Nat) (e : AttributionEntry),
      e ∈ applyDiffGo A t H i → e ∈ A ∨ e = t ∨ e = none := by
  intro H
  induction H with
  | nil => intro i e he; simp [applyDiffGo] at he
  | cons h rest ih =>
      intro i e he
      rcases h with ⟨ty, lines⟩
      cases ty with
      | equal =>
          simp only [applyDiffGo, List.mem_append] at he
          rcases he with he | he
          · simp only [List.mem_map, List.mem_range] at he
            obtain ⟨k, _, hk⟩ := he
            cases hget : A.get? (i + k) with
            | none => rw [hget] at hk; right; right; exact hk.symm
            | some x =>
                rw [hget] at hk
                left
                have : e = x := hk.symm
                rw [this]
                exact List.get?_mem hget
          · exact ih _ e he
      | delete =>
          simp only [applyDiffGo] at he
          exact ih _ e he
      | add =>
          simp only [applyDiffGo, List.mem_append] at he
          rcases he with he | he
          · right; left; exact List.eq_of_mem_replicate he
          · exact ih _ e he

lemma applyDiffToAttribution_mem (A : List AttributionEntry) (H : List DiffHunk)
    (t e : AttributionEntry) (he : e ∈ applyDiffToAttribution A H t) :
    e ∈ A ∨ e = t ∨ e = none :=
  applyDiffGo_mem A t H 0 e he

lemma buildLoop_mem (d : DiffFn) (p : String) :
    ∀ (rest : List TraceRecord) (prev : TraceRecord) (a : List AttributionEntry)
      (e : AttributionEntry), e ∈ buildLoop d p prev a rest →
      e ∈ a ∨ e = none ∨ ∃ t ∈ rest, e = some t.id := by
  intro rest
  induction rest with
  | nil => intro prev a e he; exact Or.inl (by simpa [buildLoop] using he)
  | cons t rest' ih =>
      intro prev a e he
      simp only [buildLoop] at he
      have hstep := ih t _ e he
      have ha1 : ∀ x : AttributionEntry,
          (x ∈ (if getAfterSha prev = getBeforeSha t then a
            else
              let gapHunks := d (getAfterSha prev) (getBeforeSha t) p
              if 0 < gapHunks.length then applyDiffToAttribution a gapHunks none
              else a)) → x ∈ a ∨ x = none := by
        intro x hx
        by_cases hsha : getAfterSha prev = getBeforeSha t
        · rw [if_pos hsha] at hx; exact Or.inl hx
        · rw [if_neg hsha] at hx
          by_cases hlen : 0 < (d (getAfterSha prev) (getBeforeSha t) p).length
          · simp only [if_pos hlen] at hx
            rcases applyDiffToAttribution_mem _ _ _ _ hx with h | h | h
            · exact Or.inl h
            · exact Or.inr h
            · exact Or.inr h
          · simp only [if_neg hlen] at hx
            exact Or.inl hx
      rcases hstep with hstep | hstep | hstep
      · rcases applyDiffToAttribution_mem _ _ _ _ hstep with h | h | h
        · rcases ha1 e h with h' | h'
          · exact Or.inl h'
          · exact Or.inr (Or.inl h')
        · exact Or.inr (Or.inr ⟨t, by simp, h⟩)
        · exact Or.inr (Or.inl h)
      · exact Or.inr (Or.inl hstep)
      · obtain ⟨u, hu, hue⟩ := hstep
        exact Or.inr (Or.inr ⟨u, by simp [hu], hue⟩)

lemma buildAttribution_mem (traces : List TraceRecord) (p : String) (d : DiffFn)
    (c : Option String) (e : AttributionEntry) (he : e ∈ buildAttribution traces p d c) :
    e = none ∨ ∃ t ∈ traces, e = some t.id := by
  match traces with
  | [] => simp [buildAttribution] at he
  | [t] =>
      simp only [buildAttribution] at he
      have base : ∀ x : AttributionEntry,
          x ∈ applyDiffToAttribution [] (d (getBeforeSha t) (getAfterSha t) p) (some t.id) →
          x = none ∨ ∃ u ∈ [t], x = some u.id := by
        intro x hx
        rcases applyDiffToAttribution_mem _ _ _ _ hx with h | h | h
        · simp at h
        · exact Or.inr ⟨t, by simp, h⟩
        · exact Or.inl h
      match c with
      | none => exact base e he
      | some sha =>
          by_cases hlen : 0 < (d (getAfterSha t) sha p).length
          · simp only [if_pos hlen] at he
            rcases applyDiffToAttribution_mem _ _ _ _ he with h | h | h
            · exact base e h
            · exact Or.inl h
            · exact Or.inl h
          · simp only [if_neg hlen] at he
            exact base e he
  | t0 :: t1 :: rest =>
      simp only [buildAttribution] at he
      have base : ∀ x : AttributionEntry,
          x ∈ buildLoop d p t0
            (applyDiffToAttribution [] (d (getBeforeSha t0) (getAfterSha t0) p) (some t0.id))
            (t1 :: rest) →
          x = none ∨ ∃ u ∈ t0 :: t1 :: rest, x = some u.id := by
        intro x hx
        rcases buildLoop_mem d p (t1 :: rest) t0 _ x hx with h | h | h
        · rcases applyDiffToAttribution_mem _ _ _ _ h with h' | h' | h'
          · simp at h'
          · exact Or.inr ⟨t0, by simp, h'⟩
          · exact Or.inl h'
        · exact Or.inl h
        · obtain ⟨u, hu, hue⟩ := h
          exact Or.inr ⟨u, by simp [List.mem_cons.mp hu], hue⟩
      match c with
      | none => exact base e he
      | some sha =>
          by_cases hlen : 0 <
              (d (getAfterSha ((t1 :: rest).getLast?.getD t0)) sha p).length
          · simp only [if_pos hlen] at he
            rcases applyDiffToAttribution_mem _ _ _ _ he with h | h | h
            · exact base e h
            · exact Or.inl h
            · exact Or.inl h
          · simp only [if_neg hlen] at he
            exact base e he

/- ------------------------------------------------------------------ -/
/- Characterizing resolveAttributionForCommit                          -/
/- ------------------------------------------------------------------ -/

/-- The resolved ranges that `resolveAttributionForCommit` computes for one
committed file. -/
def fileRangesFor (traces : List TraceRecord) (file : String) (commitSha : String)
    (d : DiffFn) : List ResolvedRange :=
  resolveRanges (buildAttribution (touchingFor traces file) file d (some commitSha))

lemma addTraceId_foldl_mem (id : String) :
    ∀ (rs : List ResolvedRange) (ids : List String),
      id ∈ rs.foldl (fun ids r => addTraceId ids r.trace_id) ids ↔
        id ∈ ids ∨ ∃ r ∈ rs, r.trace_id = id := by
  intro rs
  induction rs with
  | nil => intro ids; simp
  | cons r rs' ih =>
      intro ids
      simp only [List.foldl_cons]
      rw [ih]
      have hadd : id ∈ addTraceId ids r.trace_id ↔ id ∈ ids ∨ r.trace_id = id := by
        by_cases hc : ids.contains r.trace_id
        · simp only [addTraceId, if_pos hc]
          constructor
          · exact Or.inl
          · rintro (h | h)
            · exact h
            · rw [← h]; exact List.elem_iff.mp hc
        · simp only [addTraceId, if_neg hc, List.mem_append, List.mem_singleton]
          constructor
          · rintro (h | h)
            · exact Or.inl h
            · exact Or.inr h.symm
          · rintro (h | h)
            · exact Or.inl h
            · exact Or.inr h.symm
      rw [hadd]
      constructor
      · rintro ((h | h) | h)
        · exact Or.inl h
        · exact Or.inr ⟨r, by simp, h⟩
        · obtain ⟨x, hx, hxe⟩ := h
          exact Or.inr ⟨x, by simp [hx], hxe⟩
      · rintro (h | h)
        · exact Or.inl (Or.inl h)
        · obtain ⟨x, hx, hxe⟩ := h
          rcases List.mem_cons.mp hx with hx' | hx'
          · subst hx'; exact Or.inl (Or.inr hxe)
          · exact Or.inr ⟨x, hx', hxe⟩

lemma racStep_resolved_mem (traces : List TraceRecord) (commitSha : String) (d : DiffFn)
    (acc : List (String × List ResolvedRange) × List String) (f : String)
    (pr : String × List ResolvedRange) :
    pr ∈ (racStep traces commitSha d acc f).1 ↔
      pr ∈ acc.1 ∨ (¬(touchingFor traces f).isEmpty = true ∧
        pr = (f, fileRangesFor traces f commitSha d) ∧ 0 < pr.2.length) := by
  by_cases hemp : (touchingFor traces f).isEmpty = true
  · simp [racStep, hemp]
  · by_cases hlen : 0 < (fileRangesFor traces f commitSha d).length
    · have hstep : (racStep traces commitSha d acc f).1 =
          acc.1 ++ [(f, fileRangesFor traces f commitSha d)] := by
        simp only [racStep, fileRangesFor] at *
        rw [if_neg hemp, if_pos hlen]
      rw [hstep, List.mem_append, List.mem_singleton]
      constructor
      · rintro (h | h)
        · exact Or.inl h
        · refine Or.inr ⟨hemp, h, ?_⟩
          rw [h]
          exact hlen
      · rintro (h | ⟨_, h, _⟩)
        · exact Or.inl h
        · exact Or.inr h
    · have hstep : (racStep traces commitSha d acc f).1 = acc.1 := by
        simp only [racStep, fileRangesFor] at *
        rw [if_neg hemp, if_neg hlen]
      rw [hstep]
      constructor
      · exact Or.inl
      · rintro (h | ⟨_, h, hp⟩)
        · exact h
        · exfalso
          rw [h] at hp
          exact hlen hp

lemma racStep_ids_mem (traces : List TraceRecord) (commitSha : String) (d : DiffFn)
    (acc : List (String × List ResolvedRange) × List String) (f : String) (id : String) :
    id ∈ (racStep traces commitSha d acc f).2 ↔
      id ∈ acc.2 ∨ (¬(touchingFor traces f).isEmpty = true ∧
        ∃ r ∈ fileRangesFor traces f commitSha d, r.trace_id = id) := by
  by_cases hemp : (touchingFor traces f).isEmpty = true
  · simp [racStep, hemp]
  · have hstep : (racStep traces commitSha d acc f).2 =
        (fileRangesFor traces f commitSha d).foldl
          (fun ids r => addTraceId ids r.trace_id) acc.2 := by
      simp only [racStep, fileRangesFor] at *
      rw [if_neg hemp]
      by_cases hlen : 0 < (resolveRanges (buildAttribution (touchingFor traces f) f d
          (some commitSha))).length
      · rw [if_pos hlen]
      · rw [if_neg hlen]
    rw [hstep, addTraceId_foldl_mem]
    constructor
    · rintro (h | h)
      · exact Or.inl h
      · exact Or.inr ⟨hemp, h⟩
    · rintro (h | ⟨_, h⟩)
      · exact Or.inl h
      · exact Or.inr h

lemma rac_foldl_resolved (traces : List TraceRecord) (commitSha : String) (d : DiffFn) :
    ∀ (files : List String) (acc : List (String × List ResolvedRange) × List String)
      (pr : String × List ResolvedRange),
      pr ∈ (files.foldl (racStep traces commitSha d) acc).1 ↔
        pr ∈ acc.1 ∨ ∃ file ∈ files, ¬(touchingFor traces file).isEmpty = true ∧
          pr = (file, fileRangesFor traces file commitSha d) ∧ 0 < pr.2.length := by
  intro files
  induction files with
  | nil => intro acc pr; simp
  | cons f fs ih =>
      intro acc pr
      rw [List.foldl_cons, ih, racStep_resolved_mem]
      constructor
      · rintro ((h | h) | h)
        · exact Or.inl h
        · exact Or.inr ⟨f, by simp, h⟩
        · obtain ⟨file, hf, hrest⟩ := h
          exact Or.inr ⟨file, by simp [hf], hrest⟩
      · rintro (h | h)
        · exact Or.inl (Or.inl h)
        · obtain ⟨file, hf, hrest⟩ := h
          rcases List.mem_cons.mp hf with hf' | hf'
          · subst hf'; exact Or.inl (Or.inr hrest)
          · exact Or.inr ⟨file, hf', hrest⟩

lemma rac_foldl_ids (traces : List TraceRecord) (commitSha : String) (d : DiffFn) :
    ∀ (files : List String) (acc : List (String × List ResolvedRange) × List String)
      (id : String),
      id ∈ (files.foldl (racStep traces commitSha d) acc).2 ↔
        id ∈ acc.2 ∨ ∃ file ∈ files, ¬(touchingFor traces file).isEmpty = true ∧
          ∃ r ∈ fileRangesFor traces file commitSha d, r.trace_id = id := by
  intro files
  induction files with
  | nil => intro acc id; simp
  | cons f fs ih =>
      intro acc id
      rw [List.foldl_cons, ih, racStep_ids_mem]
      constructor
      · rintro ((h | h) | h)
        · exact Or.inl h
        · exact Or.inr ⟨f, by simp, h⟩
        · obtain ⟨file, hf, hrest⟩ := h
          exact Or.inr ⟨file, by simp [hf], hrest⟩
      · rintro (h | h)
        · exact Or.inl (Or.inl h)
        · obtain ⟨file, hf, hrest⟩ := h
          rcases List.mem_cons.mp hf with hf' | hf'
          · subst hf'; exact Or.inl (Or.inr hrest)
          · exact Or.inr ⟨file, hf', hrest⟩

/-- The returned trace-id set is exactly the set of ids of emitted ranges. -/
lemma rac_ids_iff_ranges (traces : List TraceRecord) (committedFiles : List String)
    (commitSha : String) (d : DiffFn) (id : String) :
    id ∈ (resolveAttributionForCommit traces committedFiles commitSha d).2 ↔
      ∃ pr ∈ (resolveAttributionForCommit traces committedFiles commitSha d).1,
        ∃ r ∈ pr.2, r.trace_id = id := by
  unfold resolveAttributionForCommit
  rw [rac_foldl_ids]
  constructor
  · rintro (h | ⟨file, hmem, hne, r, hr, hid⟩)
    · simp at h
    · refine ⟨(file, fileRangesFor traces file commitSha d), ?_, r, hr, hid⟩
      rw [rac_foldl_resolved]
      refine Or.inr ⟨file, hmem, hne, rfl, ?_⟩
      exact List.length_pos.mpr (List.ne_nil_of_mem hr)
  · rintro ⟨pr, hpr, r, hr, hid⟩
    rw [rac_foldl_resolved] at hpr
    rcases hpr with h | ⟨file, hmem, hne, hpr, _⟩
    · simp at h
    · refine Or.inr ⟨file, hmem, hne, r, ?_, hid⟩
      rw [hpr] at hr
      exact hr

/-- C10: well-formedness of the resolved output. Every file kept in the
resolved map carries a non-empty range list, which is exactly the range
resolution of that file's attribution vector; every range satisfies
`1 ≤ start ≤ end`; within a file the ranges are disjoint and strictly
ascending (each range starts strictly after the previous one ends); every
range describes a maximal run of its (inherently non-null) trace id in the
underlying vector; and the returned trace-id set is exactly the set of
`trace_id` values occurring in the emitted ranges. -/
theorem resolveAttributionForCommit_wf (traces : List TraceRecord)
    (committedFiles : List String) (commitSha : String) (d : DiffFn) :
    (∀ pr ∈ (resolveAttributionForCommit traces committedFiles commitSha d).1,
      pr.2 ≠ [] ∧
      pr.2 = resolveRanges (buildAttribution (touchingFor traces pr.1) pr.1 d
        (some commitSha)) ∧
      List.Chain' (fun r1 r2 => r1.«end» < r2.start) pr.2 ∧
      ∀ r ∈ pr.2,
        RangeSpec (buildAttribution (touchingFor traces pr.1) pr.1 d (some commitSha)) r) ∧
    (∀ id : String,
      id ∈ (resolveAttributionForCommit traces committedFiles commitSha d).2 ↔
        ∃ pr ∈ (resolveAttributionForCommit traces committedFiles commitSha d).1,
          ∃ r ∈ pr.2, r.trace_id = id) := by
  constructor
  · intro pr hpr
    have hpr' := (rac_foldl_resolved traces commitSha d committedFiles ([], []) pr).mp hpr
    rcases hpr' with h | ⟨file, _, _, hpr', hlen⟩
    · simp at h
    · subst hpr'
      refine ⟨List.length_pos.mp hlen, rfl, resolveRanges_chain _, ?_⟩
      intro r hr
      exact resolveRanges_spec _ r hr
  · intro id
    exact rac_ids_iff_ranges traces committedFiles commitSha d id

/-- Witness for C10 at the concrete scenario: resolving `[T1]` over
`src/app.ts` with terminal snapshot `s2` yields the ranges
`[{1,1,T1},{3,3,T1}]`, which are strictly ascending. -/
theorem resolveAttributionForCommit_wf_witness :
    List.Chain' (fun r1 r2 => r1.«end» < r2.start)
      ((afile, [⟨1, 1, "T1"⟩, ⟨3, 3, "T1"⟩]) : String × List ResolvedRange).2 ∧
    "T1" ∈ (resolveAttributionForCommit [trace1] [afile] "s2" dC2).2 := by
  have hmem : ((afile, [⟨1, 1, "T1"⟩, ⟨3, 3, "T1"⟩]) : String × List ResolvedRange) ∈
      (resolveAttributionForCommit [trace1] [afile] "s2" dC2).1 := by decide
  constructor
  · exact ((resolveAttributionForCommit_wf [trace1] [afile] "s2" dC2).1 _ hmem).2.2.1
  · refine ((resolveAttributionForCommit_wf [trace1] [afile] "s2" dC2).2 "T1").mpr ?_
    exact ⟨_, hmem, ⟨1, 1, "T1"⟩, by decide, rfl⟩

/- ------------------------------------------------------------------ -/
/- Commit finalization: the trace note                                 -/
/- ------------------------------------------------------------------ -/

/-- The per-file fill step of `handleCommitDetected` (`persist.ts`): when the
resolved map has the file and the file has at least one conversation, the
first conversation's ranges become the resolved ranges carrying this trace's
id. -/
def fillFileRanges (resolved : List (String × List ResolvedRange)) (id : String)
    (f : TraceFile) : TraceFile :=
  match lookupRanges resolved f.path with
  | some fileRanges =>
    match f.conversations with
    | [] => f
    | c :: cs =>
      { f with conversations :=
          ({ c with ranges := ((fileRanges.filter (fun r => r.trace_id == id)).map
              (fun r => ⟨r.start, r.«end»⟩)) } :: cs) }
  | none => f

/-- The per-trace projection of `handleCommitDetected`: deep-copy the trace,
filter `files` to the committed subset, and fill the conversation ranges. -/
def finalizeTrace (resolved : List (String × List ResolvedRange))
    (committedFiles : List String) (t : TraceRecord) : TraceRecord :=
  { t with files := ((t.files.filter (fun f => committedFiles.contains f.path)).map
      (fillFileRanges resolved t.id)) }

/-- The note construction of `handleCommitDetected` (`persist.ts`): retain
the traces touching a committed file, resolve attribution, keep only the
traces whose id was used, project their files, and store the resolved map. -/
def handleCommitNote (traces : List TraceRecord) (committedFiles : List String)
    (commitSha : String) (d : DiffFn) : TraceNote :=
  let matchingTraces := traces.filter fun t => t.files.any fun f =>
    committedFiles.contains f.path
  let rac := resolveAttributionForCommit matchingTraces committedFiles commitSha d
  { traces := (matchingTraces.filter fun t => rac.2.contains t.id).map
      (finalizeTrace rac.1 committedFiles),
    resolved := some rac.1 }

lemma fillFileRanges_path (resolved : List (String × List ResolvedRange)) (id : String)
    (f : TraceFile) : (fillFileRanges resolved id f).path = f.path := by
  unfold fillFileRanges
  split
  · split <;> rfl
  · rfl

lemma fillFileRanges_head (resolved : List (String × List ResolvedRange)) (id : String)
    (f0 : TraceFile) (rs : List ResolvedRange)
    (hrs : lookupRanges resolved f0.path = some rs) :
    ∀ c, (fillFileRanges resolved id f0).conversations.head? = some c →
      c.ranges = (rs.filter fun r => r.trace_id == id).map fun r => ⟨r.start, r.«end»⟩ := by
  intro c hc
  unfold fillFileRanges at hc
  rw [hrs] at hc
  rcases hconv : f0.conversations with _ | ⟨c0, cs⟩
  · rw [hconv] at hc
    simp [hconv] at hc
  · rw [hconv] at hc
    simp at hc
    rw [← hc]

/-- C4: the finalized note contains exactly the contributing traces: a trace
id appears among the note's traces if and only if some resolved range of the
note's resolved map carries it; the resolved map stored in the note is the
resolver's output; each retained trace's files are filtered to the committed
files; and wherever the resolved map has a kept file and the file has a
conversation, the first conversation's ranges are exactly the resolved
ranges carrying that trace's id. -/
theorem handleCommitNote_spec (traces : List TraceRecord) (committedFiles : List String)
    (commitSha : String) (d : DiffFn) :
    (∀ id : String,
      (∃ ft ∈ (handleCommitNote traces committedFiles commitSha d).traces, ft.id = id) ↔
      (∃ pr ∈ (resolveAttributionForCommit
          (traces.filter fun t => t.files.any fun f => committedFiles.contains f.path)
          committedFiles commitSha d).1, ∃ r ∈ pr.2, r.trace_id = id)) ∧
    ((handleCommitNote traces committedFiles commitSha d).resolved =
      some (resolveAttributionForCommit
        (traces.filter fun t => t.files.any fun f => committedFiles.contains f.path)
        committedFiles commitSha d).1) ∧
    (∀ ft ∈ (handleCommitNote traces committedFiles commitSha d).traces,
      ∀ f ∈ ft.files, committedFiles.contains f.path = true) ∧
    (∀ ft ∈ (handleCommitNote traces committedFiles commitSha d).traces,
      ∀ f ∈ ft.files, ∀ rs,
        lookupRanges (resolveAttributionForCommit
          (traces.filter fun t => t.files.any fun f => committedFiles.contains f.path)
          committedFiles commitSha d).1 f.path = some rs →
        ∀ c, f.conversations.head? = some c →
          c.ranges = (rs.filter (fun r => r.trace_id == ft.id)).map
            (fun r => ⟨r.start, r.«end»⟩)) := by
  refine ⟨?_, rfl, ?_, ?_⟩
  · intro id
    constructor
    · rintro ⟨ft, hft, hfid⟩
      simp only [handleCommitNote, List.mem_map, List.mem_filter] at hft
      obtain ⟨t, ⟨htM, htC⟩, hteq⟩ := hft
      have hid : t.id = id := by
        rw [← hfid, ← hteq]
        rfl
      rw [← hid]
      exact (rac_ids_iff_ranges _ committedFiles commitSha d t.id).mp
        (List.elem_iff.mp htC)
    · rintro hex
      have hids := (rac_ids_iff_ranges
        (traces.filter fun t => t.files.any fun f => committedFiles.contains f.path)
        committedFiles commitSha d id).mpr hex
      have hfl := (rac_foldl_ids
        (traces.filter fun t => t.files.any fun f => committedFiles.contains f.path)
        commitSha d committedFiles ([], []) id).mp hids
      rcases hfl with h | ⟨file, _, _, r, hr, hrid⟩
      · simp at h
      · have hmem := resolveRanges_trace_id_mem _ r hr
        rcases buildAttribution_mem _ _ _ _ _ hmem with h | ⟨t, ht, hte⟩
        · cases h
        · have htid : t.id = id := by
            rw [hrid] at hte
            exact (Option.some.injEq _ _ ▸ hte).symm
          have htM : t ∈ traces.filter fun t => t.files.any fun f =>
              committedFiles.contains f.path :=
            List.mem_of_mem_filter ht
          refine ⟨finalizeTrace (resolveAttributionForCommit
            (traces.filter fun t => t.files.any fun f => committedFiles.contains f.path)
            committedFiles commitSha d).1 committedFiles t, ?_, htid⟩
          simp only [handleCommitNote, List.mem_map, List.mem_filter]
          refine ⟨t, ⟨List.mem_filter.mp htM, ?_⟩, rfl⟩
          rw [List.elem_iff]
          rw [htid]
          exact hids
  · intro ft hft f hf
    simp only [handleCommitNote, List.mem_map, List.mem_filter] at hft
    obtain ⟨t, ⟨htM, htC⟩, hteq⟩ := hft
    rw [← hteq] at hf
    simp only [finalizeTrace, List.mem_map, List.mem_filter] at hf
    obtain ⟨f0, ⟨hf0, hf0C⟩, hf0eq⟩ := hf
    rw [← hf0eq, fillFileRanges_path]
    exact hf0C
  · intro ft hft f hf rs hrs c hc
    simp only [handleCommitNote, List.mem_map, List.mem_filter] at hft
    obtain ⟨t, ⟨htM, htC⟩, hteq⟩ := hft
    rw [← hteq] at hf
    simp only [finalizeTrace, List.mem_map, List.mem_filter] at hf
    obtain ⟨f0, ⟨hf0, hf0C⟩, hf0eq⟩ := hf
    have hpath : f.path = f0.path := by rw [← hf0eq, fillFileRanges_path]
    have hid : ft.id = t.id := by rw [← hteq]; rfl
    rw [hpath] at hrs
    rw [← hf0eq] at hc
    rw [hid]
    exact fillFileRanges_head _ _ _ rs hrs c hc

/-- Witness for C4 at the concrete scenario: trace `T1` appears in the note
written for commit `s2` because a resolved range carries its id. -/
theorem handleCommitNote_spec_witness :
    ∃ ft ∈ (handleCommitNote [trace1] [afile] "s2" dC2).traces, ft.id = "T1" := by
  refine ((handleCommitNote_spec [trace1] [afile] "s2" dC2).1 "T1").mpr ?_
  refine ⟨(afile, [⟨1, 1, "T1"⟩, ⟨3, 3, "T1"⟩]), by decide, ⟨1, 1, "T1"⟩, by decide, rfl⟩

end PiRewind
